import Mathlib

/-!
Verification of the YMS yard-management core: position decoding, bay-grid
construction with collision resolution, planning-queue relocation between the
stock pool and stacker queues, ETA arithmetic, and the dashboard aggregations.
All definitions are shallow embeddings of the TypeScript source
(src/components/PlanningTab.tsx, src/services/dataProcessor.ts and the two
layout/dashboard components).
-/

/-- One physical unit in the yard, mirroring the StockItem interface of
src/types.ts. -/
structure StockItem where
  id : String
  cntr : String
  loc : String
  quadra : String
  bay : String
  pos : String
  servico : String
  quadraBase : String
deriving DecidableEq, Repr

/-- One expected movement, mirroring the ScheduleItem interface of src/types.ts.
The nullable scheduled timestamp `_rawDate : Date | null` is modelled as an
optional integer of epoch milliseconds. -/
structure ScheduleItem where
  id : String
  importador : String
  cntr : String
  tipoDoc : String
  quadraFull : String
  servico : String
  remocoes : Nat
  rawDate : Option Int
deriving DecidableEq, Repr

/-- JavaScript parseInt applied to a one-character string: an ASCII digit
yields its value, anything else yields NaN (modelled as none). -/
def jsParseIntChar (c : Char) : Option Nat :=
  if c.isDigit then some (c.toNat - 48) else none

/-- The decoded yard coordinate: 0-based row index and 1-based tier. -/
structure YPosition where
  row : Nat
  tier : Nat
deriving DecidableEq, Repr

/-- parsePosition of src/components/PlanningTab.tsx lines 54-84.  Reads the
last character as the tier (parseInt, NaN defaults to 1) and the uppercased
second-to-last character as the row (letter A-Z gives its offset from A, else a
positive digit N gives N-1, else 0), and clamps row to [0,5] and tier to
[1,6].  `max 0` on a Nat row mirrors Math.max(0, ...). -/
def parsePosition (l : String) : YPosition :=
  let cs := l.data
  if cs.length < 2 then { row := 0, tier := 1 }
  else
    let tierChar := cs.reverse.headD ' '
    let rowChar := (cs.reverse.getD 1 ' ').toUpper
    let tier := (jsParseIntChar tierChar).getD 1
    let code := rowChar.toNat
    let row :=
      if 65 ≤ code ∧ code ≤ 90 then code - 65
      else
        match jsParseIntChar rowChar with
        | some num => if 0 < num then num - 1 else 0
        | none => 0
    { row := max 0 (min 5 row), tier := max 1 (min 6 tier) }

/-- getRowIndex of the layout tab (src/unnamed/part_000 lines 42-50): same row
rules as parsePosition but with NO clamping of the letter branch — a letter
beyond F yields an index beyond 5, and a digit beyond 6 yields its value minus
one. -/
def getRowIndex (l : String) : Nat :=
  let cs := l.data
  if cs.length < 2 then 0
  else
    let rowChar := (cs.reverse.getD 1 ' ').toUpper
    let code := rowChar.toNat
    if 65 ≤ code ∧ code ≤ 90 then code - 65
    else
      match jsParseIntChar rowChar with
      | some num => if 0 < num then num - 1 else 0
      | none => 0

/-- getTier of the layout tab (src/unnamed/part_000 lines 53-57): parseInt of
the last character, NaN defaults to 1, with NO clamping to [1,6]. -/
def getTier (l : String) : Nat :=
  if l.data.length = 0 then 1
  else (jsParseIntChar (l.data.reverse.headD ' ')).getD 1

/-! ## The fine 6x6 bay grid of quadraViewData
(src/components/PlanningTab.tsx lines 294-338).  The grid is a function from
(visual tier index, visual row index) to an optional occupant; the source only
ever reads and writes indices inside [0,6) x [0,6), so the functional
representation is faithful on the used domain. -/

/-- The 6x6 occupancy grid of one bay. -/
def BayGrid := Nat → Nat → Option StockItem

/-- `Array(6).fill(null).map(() => Array(6).fill(null))`. -/
def emptyGrid : BayGrid := fun _ _ => none

/-- `grid[t][r] = v`. -/
def setCell (g : BayGrid) (t r : Nat) (v : Option StockItem) : BayGrid :=
  fun t2 r2 => if t2 = t ∧ r2 = r then v else g t2 r2

/-- The collision-resolution scan order of PlanningTab lines 319-328: the outer
loop runs the grid row index t from 5 down to 0 (visual row 5 is tier 1, visual
row 0 is tier 6, so tiers are visited from the LOWEST tier upward), the inner
loop runs the column r from 0 to 5 (rows A to F, left to right). -/
def scanOrder : List (Nat × Nat) :=
  (List.range 6).reverse.flatMap (fun t => (List.range 6).map (fun r => (t, r)))

/-- The first empty cell in the collision scan order, if any. -/
def findFirstEmpty (g : BayGrid) : Option (Nat × Nat) :=
  scanOrder.find? (fun c => (g c.1 c.2).isNone)

/-- Whether the 6x6 grid still has an empty cell. -/
def hasFreeCell (g : BayGrid) : Bool :=
  scanOrder.any (fun c => (g c.1 c.2).isNone)

/-- The per-item placement step of quadraViewData (PlanningTab lines 300-331):
decode the item, target cell grid[6 - tier][row]; place there when empty,
otherwise place at the first empty cell of the collision scan, otherwise drop
the item from the grid.  The JS bounds check `visualTier >= 0 && visualRow >= 0`
is automatic for Nat. -/
def placeItem (g : BayGrid) (item : StockItem) : BayGrid :=
  let p := parsePosition item.loc
  let visualRow := p.row
  let visualTier := 6 - p.tier
  if visualTier < 6 ∧ visualRow < 6 then
    if g visualTier visualRow = none then
      setCell g visualTier visualRow (some item)
    else
      match findFirstEmpty g with
      | some c => setCell g c.1 c.2 (some item)
      | none => g
  else g

/-- `bayItems.forEach(item => ...)` over an initially empty grid. -/
def buildBayGrid (items : List StockItem) : BayGrid :=
  items.foldl placeItem emptyGrid

/-! ## Planning state and the queue operations
(src/components/PlanningTab.tsx lines 181-211). -/

/-- The three stacker identifiers of src/types.ts. -/
inductive StackerId where
  | s1
  | s2
  | s3
deriving DecidableEq, Repr

/-- The shared stock pool (`stockData`) together with the three per-stacker
queues (`planningState`). -/
structure PlanState where
  pool : List StockItem
  q1 : List StockItem
  q2 : List StockItem
  q3 : List StockItem
deriving DecidableEq, Repr

def getQueue (st : PlanState) : StackerId → List StockItem
  | .s1 => st.q1
  | .s2 => st.q2
  | .s3 => st.q3

def setQueue (st : PlanState) (m : StackerId) (q : List StockItem) : PlanState :=
  match m with
  | .s1 => { st with q1 := q }
  | .s2 => { st with q2 := q }
  | .s3 => { st with q3 := q }

/-- handleDrop (PlanningTab lines 181-194): append the dropped items to the
active stacker queue and filter every matching identity out of the stock pool.
There is no membership check on the dropped items. -/
def handleDrop (st : PlanState) (m : StackerId) (items : List StockItem) : PlanState :=
  let st2 := setQueue st m (getQueue st m ++ items)
  { st2 with pool := st2.pool.filter (fun s => ! items.any (fun i => i.id == s.id)) }

/-- handleRemoveFromPlan (PlanningTab lines 196-205): find the item in the
active queue by identity; when absent do nothing, otherwise append it back to
the pool and filter it out of the queue. -/
def handleRemoveFromPlan (st : PlanState) (m : StackerId) (itemId : String) : PlanState :=
  match (getQueue st m).find? (fun i => i.id == itemId) with
  | none => st
  | some item =>
    let st2 := { st with pool := st.pool ++ [item] }
    setQueue st2 m ((getQueue st2 m).filter (fun i => i.id != itemId))

/-- handleClearPlan (PlanningTab lines 207-211): append the whole queue back to
the pool and empty the queue. -/
def handleClearPlan (st : PlanState) (m : StackerId) : PlanState :=
  let items := getQueue st m
  setQueue { st with pool := st.pool ++ items } m []

/-- The observable planning operations. -/
inductive PlanOp where
  | assign (m : StackerId) (items : List StockItem)
  | unassign (m : StackerId) (itemId : String)
  | clearQueue (m : StackerId)

def applyOp (st : PlanState) : PlanOp → PlanState
  | .assign m items => handleDrop st m items
  | .unassign m itemId => handleRemoveFromPlan st m itemId
  | .clearQueue m => handleClearPlan st m

def runOps (st : PlanState) (ops : List PlanOp) : PlanState :=
  ops.foldl applyOp st

/-- The identities of a list of stock items. -/
def idsOf (l : List StockItem) : List String := l.map (fun i => i.id)

/-- The identities currently stored anywhere in the planning state, pool first
then the three queues. -/
def allIds (st : PlanState) : List String :=
  idsOf (st.pool ++ st.q1 ++ st.q2 ++ st.q3)

/-- Boolean duplicate-freeness of a list of identifiers. -/
def nodupB : List String → Bool
  | [] => true
  | x :: xs => (! xs.contains x) && nodupB xs

/-- Precondition under which one planning operation is well-behaved: an assign
may only pass items whose identities are pairwise distinct and currently in the
stock pool; unassign and clearQueue are unrestricted. -/
def okOp (st : PlanState) : PlanOp → Bool
  | .assign _ items =>
      nodupB (idsOf items) && items.all (fun i => (idsOf st.pool).contains i.id)
  | .unassign _ _ => true
  | .clearQueue _ => true

/-- Every operation of the sequence satisfies `okOp` in the state it runs in. -/
def validOps : PlanState → List PlanOp → Bool
  | _, [] => true
  | st, op :: ops => okOp st op && validOps (applyOp st op) ops

/-! ## ETA arithmetic
(src/components/PlanningTab.tsx lines 217-225).  getEstimatedTime builds a Date
at the configured start time and calls setMinutes(minutes + index * (60/mph));
setMinutes truncates its fractional argument toward zero, so the estimate is
the start time plus the floor of index*60/mph minutes.  The float product is
modelled by exact Nat floor division, which agrees with the JS double
computation whenever 60/mph is exactly representable (in particular for every
mph dividing 60 and for mph = 120, the only cases used below). -/

/-- Minutes since midnight of the estimate for the queue item at `index`, for a
stacker configured with `startMinutes` since midnight and rate `mph`
(already defaulted to at least 1 by `activeConfig.mph || 1`). -/
def getEstimatedTime (startMinutes mph index : Nat) : Nat :=
  startMinutes + index * 60 / mph

/-- The displayed pair (hour of day, minute) of toLocaleTimeString with
2-digit hour and minute. -/
def formatTimeHM (totalMinutes : Nat) : Nat × Nat :=
  ((totalMinutes / 60) % 24, totalMinutes % 60)

/-! ## Dashboard aggregations
(src/unnamed/part_001, DashboardTab lines 28-109). -/

/-- The per-service accumulator record of DashboardTab (ServiceStatData). -/
structure SvcAcc where
  count : Nat
  remocoes : Nat
  dates : List Int
  late : Nat
  onTime : Nat
deriving DecidableEq, Repr

def zeroSvcAcc : SvcAcc := ⟨0, 0, [], 0, 0⟩

/-- The grouping key `curr.servico || 'OUTROS'`. -/
def svcKey (item : ScheduleItem) : String :=
  if item.servico = "" then "OUTROS" else item.servico

/-- An item is late when it has a scheduled timestamp strictly before `now`. -/
def isLate (now : Int) (item : ScheduleItem) : Bool :=
  match item.rawDate with
  | some d => d < now
  | none => false

/-- One reduce step of serviceStats (DashboardTab lines 44-63): bump count and
remocoes, push the date when present, and charge the item to `late` when its
date is strictly before now, otherwise to `onTime` (items without a date always
count as on time). -/
def addServiceItem (now : Int) (st : SvcAcc) (item : ScheduleItem) : SvcAcc :=
  let st1 := { st with count := st.count + 1, remocoes := st.remocoes + item.remocoes }
  match item.rawDate with
  | some d =>
    let st2 := { st1 with dates := st1.dates ++ [d] }
    if d < now then { st2 with late := st2.late + 1 }
    else { st2 with onTime := st2.onTime + 1 }
  | none => { st1 with onTime := st1.onTime + 1 }

/-- `acc[k] = f(acc[k] ?? dflt)` on a JS object modelled as an association list
in key-insertion order: update the existing entry in place, or append a fresh
one initialised from `dflt`. -/
def updateAssoc {α : Type} (k : String) (f : α → α) (dflt : α) :
    List (String × α) → List (String × α)
  | [] => [(k, f dflt)]
  | (k2, v) :: rest =>
    if k2 = k then (k2, f v) :: rest else (k2, v) :: updateAssoc k f dflt rest

/-- `acc[k] ?? dflt` on the association-list model of a JS object. -/
def lookupD {α : Type} (dflt : α) (acc : List (String × α)) (k : String) : α :=
  match acc.find? (fun e => e.1 == k) with
  | some e => e.2
  | none => dflt

/-- The reduce of serviceStats over the (date-filtered) schedule items. -/
def serviceStatsRaw (now : Int) (l : List ScheduleItem) : List (String × SvcAcc) :=
  l.foldl (fun acc item =>
    updateAssoc (svcKey item) (fun st => addServiceItem now st item) zeroSvcAcc acc) []

/-- One row of the serviceStats result.  The pt-BR dateLabel string is modelled
structurally as the (min, max) pair of the collected timestamps, or none for
"Sem datas". -/
structure ServiceStat where
  service : String
  count : Nat
  remocoes : Nat
  dates : List Int
  late : Nat
  onTime : Nat
  dateRange : Option (Int × Int)
deriving DecidableEq, Repr

def dateRangeOf (dates : List Int) : Option (Int × Int) :=
  match dates with
  | [] => none
  | d :: ds => some (ds.foldl min d, ds.foldl max d)

def mkServiceStat (e : String × SvcAcc) : ServiceStat :=
  { service := e.1, count := e.2.count, remocoes := e.2.remocoes, dates := e.2.dates,
    late := e.2.late, onTime := e.2.onTime, dateRange := dateRangeOf e.2.dates }

/-- Stable insertion step of the comparison sort used to model
`Array.prototype.sort` with a user comparator (`le a b` stands for
comparator(a,b) <= 0). -/
def insertSorted {α : Type} (le : α → α → Bool) (x : α) : List α → List α
  | [] => [x]
  | y :: ys => if le x y then x :: y :: ys else y :: insertSorted le x ys

/-- Comparison sort modelling `Array.prototype.sort`. -/
def sortByCmp {α : Type} (le : α → α → Bool) (l : List α) : List α :=
  l.foldr (insertSorted le) []

/-- `.sort((a, b) => b.remocoes - a.remocoes)`: descending by remocoes. -/
def byRemocoesDesc (a b : ServiceStat) : Bool := b.remocoes ≤ a.remocoes

/-- serviceStats of DashboardTab lines 42-78: group, decorate, sort by
descending removal totals. -/
def serviceStats (now : Int) (l : List ScheduleItem) : List ServiceStat :=
  sortByCmp byRemocoesDesc ((serviceStatsRaw now l).map mkServiceStat)

/-- The per-quadra accumulator record of DashboardTab (QuadraStatData). -/
structure QuadraAcc where
  count : Nat
  remocoes : Nat
  dates : List Int
deriving DecidableEq, Repr

def zeroQuadraAcc : QuadraAcc := ⟨0, 0, []⟩

/-- The grouping key of quadraStats (DashboardTab lines 84-86): the uppercased
first two characters of quadraFull when it has at least two characters, else
quadraFull itself, with the empty string replaced by "??". -/
def quadraKey (item : ScheduleItem) : String :=
  if 2 ≤ item.quadraFull.length then (item.quadraFull.take 2).toUpper
  else if item.quadraFull = "" then "??"
  else item.quadraFull

/-- One reduce step of quadraStats (DashboardTab lines 88-94). -/
def addQuadraItem (st : QuadraAcc) (item : ScheduleItem) : QuadraAcc :=
  { count := st.count + 1, remocoes := st.remocoes + item.remocoes,
    dates :=
      match item.rawDate with
      | some d => st.dates ++ [d]
      | none => st.dates }

def quadraStatsRaw (l : List ScheduleItem) : List (String × QuadraAcc) :=
  l.foldl (fun acc item =>
    updateAssoc (quadraKey item) (fun st => addQuadraItem st item) zeroQuadraAcc acc) []

/-- One row of the quadraStats result. -/
structure QuadraStat where
  quadra : String
  count : Nat
  remocoes : Nat
  dates : List Int
  dateRange : Option (Int × Int)
deriving DecidableEq, Repr

def mkQuadraStat (e : String × QuadraAcc) : QuadraStat :=
  { quadra := e.1, count := e.2.count, remocoes := e.2.remocoes, dates := e.2.dates,
    dateRange := dateRangeOf e.2.dates }

def byRemocoesDescQ (a b : QuadraStat) : Bool := b.remocoes ≤ a.remocoes

/-- quadraStats of DashboardTab lines 81-109. -/
def quadraStats (l : List ScheduleItem) : List QuadraStat :=
  sortByCmp byRemocoesDescQ ((quadraStatsRaw l).map mkQuadraStat)

/-! ## Bay ordering in the spatial views. -/

/-- Whether a bay label contains a decimal digit (so that
`parseInt(label.replace(/\D/g, ""))` is not NaN). -/
def hasDigit (s : String) : Bool := s.data.any Char.isDigit

/-- The digits kept by `label.replace(/\D/g, "")`. -/
def digitsOf (s : String) : List Char := s.data.filter Char.isDigit

def digitsToNat (ds : List Char) : Nat :=
  ds.foldl (fun n c => n * 10 + (c.toNat - 48)) 0

/-- The embedded numeric portion of a bay label: `parseInt` of its digits, NaN
(none) when the label has no digit. -/
def numPart (s : String) : Option Nat :=
  match digitsOf s with
  | [] => none
  | ds => some (digitsToNat ds)

/-- The numeric value of a label that contains a digit. -/
def numVal (s : String) : Nat := digitsToNat (digitsOf s)

/-- Character-wise lexicographic comparison of code units. -/
def lexLEChars : List Char → List Char → Bool
  | [], _ => true
  | _ :: _, [] => false
  | x :: xs, y :: ys => if x = y then lexLEChars xs ys else decide (x.toNat < y.toNat)

/-- localeCompare / the default JS sort order, modelled as code-unit
lexicographic string order. -/
def lexLE (a b : String) : Bool := lexLEChars a.data b.data

/-- The pairwise comparator of sortedBays in the layout tab (src/unnamed/part_000
lines 119-124): numeric ascending when BOTH labels contain a number, otherwise
localeCompare. -/
def bayLE (a b : String) : Bool :=
  match numPart a, numPart b with
  | some na, some nb => na ≤ nb
  | _, _ => lexLE a b

/-- sortedBays of the layout tab. -/
def sortedBays (l : List String) : List String := sortByCmp bayLE l

/-- The bay keys of quadraViewData in key-insertion order
(`Object.keys(bays)`, PlanningTab lines 288-292). -/
def insertionKeys (items : List StockItem) : List String :=
  items.foldl (fun ks i => if ks.contains i.bay then ks else ks ++ [i.bay]) []

/-- The bay order of the quadra modal (PlanningTab line 295):
`Object.keys(bays).sort()` — the DEFAULT lexicographic sort. -/
def planningBayOrder (items : List StockItem) : List String :=
  sortByCmp lexLE (insertionKeys items)

/-! ## Concrete fixtures used by witnesses and counterexamples. -/

def itemX : StockItem :=
  ⟨"X", "XCTR", "B2A1", "B2", "B2A1", "A1", "IMPORT", "N/I"⟩

def itemY : StockItem :=
  ⟨"Y", "YCTR", "B2B1", "B2", "B2B1", "B1", "VAZIO", "N/I"⟩

/-- Initial state for the double-assign counterexample: itemX alone in the
pool, all queues empty. -/
def cexSt : PlanState := ⟨[itemX], [], [], []⟩

/-- Assign itemX to stacker 1, then assign it again (a drag from the quadra
modal, where planned items are still draggable) to stacker 2. -/
def cexOps : List PlanOp := [.assign .s1 [itemX], .assign .s2 [itemX]]

/-- Initial state for the planning-invariant witness. -/
def wSt : PlanState := ⟨[itemX, itemY], [], [], []⟩

def wOps : List PlanOp :=
  [.assign .s1 [itemX], .assign .s2 [itemY], .unassign .s1 "X", .clearQueue .s2]

/-- An empty planning state: assigning anything to it exercises the
not-in-pool branch of handleDrop. -/
def emptySt : PlanState := ⟨[], [], [], []⟩

/-- Two stock items of the same bay decoding to the same coordinate
(penultimate char A gives row 0, last char 1 gives tier 1). -/
def gridItemA : StockItem :=
  ⟨"GA", "GACTR", "A1", "A1", "A1", "A1", "IMPORT", "N/I"⟩

def gridItemB : StockItem :=
  ⟨"GB", "GBCTR", "A1", "A1", "A1", "A1", "VAZIO", "N/I"⟩

/-- Stock items whose bays are B2 and B10, both labels containing a number. -/
def bayItem2 : StockItem :=
  ⟨"K2", "K2CTR", "B2A1", "B2", "B2", "A1", "IMPORT", "N/I"⟩

def bayItem10 : StockItem :=
  ⟨"K10", "K10CTR", "B10A1", "B1", "B10", "A1", "IMPORT", "N/I"⟩

/-- A schedule item with timestamp 50 and 3 removals. -/
def schedItemA : ScheduleItem :=
  ⟨"sa", "IMP", "CNTRA", "-", "AB12", "IMPORT", 3, some 50⟩

/-- The serviceStats row produced for schedItemA at evaluation instant 100. -/
def schedStatA : ServiceStat :=
  ⟨"IMPORT", 1, 3, [50], 1, 0, some (50, 50)⟩

/-! # Theorems -/

/-! ## Position decoding. -/

theorem parsePosition_row_le (l : String) : (parsePosition l).row ≤ 5 := by
  simp only [parsePosition]
  split
  · simp
  · simp only
    omega

theorem parsePosition_tier_bounds (l : String) :
    1 ≤ (parsePosition l).tier ∧ (parsePosition l).tier ≤ 6 := by
  simp only [parsePosition]
  split
  · simp
  · simp only
    omega

/-- Evaluation shape of the row component for strings of length at least 2. -/
theorem parsePosition_row_eval (l : String) (h2 : 2 ≤ l.data.length) :
    (parsePosition l).row =
      max 0 (min 5
        (if 65 ≤ ((l.data.reverse.getD 1 ' ').toUpper).toNat ∧
            ((l.data.reverse.getD 1 ' ').toUpper).toNat ≤ 90 then
          ((l.data.reverse.getD 1 ' ').toUpper).toNat - 65
        else
          match jsParseIntChar ((l.data.reverse.getD 1 ' ').toUpper) with
          | some num => if 0 < num then num - 1 else 0
          | none => 0)) := by
  unfold parsePosition
  rw [if_neg (by omega)]

/-- Evaluation shape of the row component of getRowIndex for strings of length
at least 2. -/
theorem getRowIndex_eval (l : String) (h2 : 2 ≤ l.data.length) :
    getRowIndex l =
      (if 65 ≤ ((l.data.reverse.getD 1 ' ').toUpper).toNat ∧
          ((l.data.reverse.getD 1 ' ').toUpper).toNat ≤ 90 then
        ((l.data.reverse.getD 1 ' ').toUpper).toNat - 65
      else
        match jsParseIntChar ((l.data.reverse.getD 1 ' ').toUpper) with
        | some num => if 0 < num then num - 1 else 0
        | none => 0) := by
  unfold getRowIndex
  rw [if_neg (by omega)]

/-- C4: the claim says every decode function clamps (tier in [1,6], row in
[0,5]) for all location strings of length at least 2.  parsePosition does, but
the layout-tab helpers do not, contradicting their own doc comments
("Returns 0-5 index (A=0, F=5)" and "Tier (Number 1-6)"): getRowIndex "Z1"
returns 25 and getTier "A9" returns 9, while parsePosition clamps the same
inputs to row 5 and tier 6. -/
theorem decode_unclamped_eval :
    getRowIndex "Z1" = 25 ∧ ¬ getRowIndex "Z1" ≤ 5 ∧
    getTier "A9" = 9 ∧ ¬ getTier "A9" ≤ 6 ∧
    (parsePosition "Z1").row = 5 ∧ (parsePosition "A9").tier = 6 := by
  decide

/-- C10: for every location string of length at least 2 whose second-to-last
character is the digit 0, both decoders return row index 0 — the same row as
penultimate character 1 and as penultimate letter A, because the numeric
fallback requires a strictly positive parse and 0 silently falls through to the
default row. -/
theorem row_zero_fallback (s t u : String)
    (hs2 : 2 ≤ s.data.length) (hs0 : s.data.reverse.getD 1 ' ' = '0')
    (ht2 : 2 ≤ t.data.length) (ht1 : t.data.reverse.getD 1 ' ' = '1')
    (hu2 : 2 ≤ u.data.length) (huA : u.data.reverse.getD 1 ' ' = 'A') :
    (parsePosition s).row = 0 ∧ getRowIndex s = 0 ∧
    (parsePosition t).row = 0 ∧ getRowIndex t = 0 ∧
    (parsePosition u).row = 0 ∧ getRowIndex u = 0 := by
  refine ⟨?_, ?_, ?_, ?_, ?_, ?_⟩
  · rw [parsePosition_row_eval s hs2, hs0]; decide
  · rw [getRowIndex_eval s hs2, hs0]; decide
  · rw [parsePosition_row_eval t ht2, ht1]; decide
  · rw [getRowIndex_eval t ht2, ht1]; decide
  · rw [parsePosition_row_eval u hu2, huA]; decide
  · rw [getRowIndex_eval u hu2, huA]; decide

/-- Witness for C10 at the concrete strings "A01", "A11" and "AA1". -/
theorem row_zero_fallback_witness :
    (2 ≤ "A01".data.length ∧ "A01".data.reverse.getD 1 ' ' = '0' ∧
     2 ≤ "A11".data.length ∧ "A11".data.reverse.getD 1 ' ' = '1' ∧
     2 ≤ "AA1".data.length ∧ "AA1".data.reverse.getD 1 ' ' = 'A') ∧
    ((parsePosition "A01").row = 0 ∧ getRowIndex "A01" = 0 ∧
     (parsePosition "A11").row = 0 ∧ getRowIndex "A11" = 0 ∧
     (parsePosition "AA1").row = 0 ∧ getRowIndex "AA1" = 0) :=
  ⟨by decide,
   row_zero_fallback "A01" "A11" "AA1" (by decide) (by decide) (by decide)
     (by decide) (by decide) (by decide)⟩

/-! ## ETA arithmetic. -/

/-- C5 (amended): for a rate that divides 60, consecutive queue estimates are
exactly 60/rate minutes apart and strictly increasing.  (For other rates the
truncation of index*(60/rate) to whole minutes makes the gap vary, and for
rates above 60 consecutive estimates can coincide.) -/
theorem eta_gap_when_rate_divides (s r i : Nat) (h1 : 1 ≤ r) (hdvd : r ∣ 60) :
    getEstimatedTime s r (i + 1) = getEstimatedTime s r i + 60 / r ∧
    getEstimatedTime s r i < getEstimatedTime s r (i + 1) := by
  obtain ⟨k, hk⟩ := hdvd
  have hr : 0 < r := by omega
  have hquot : 60 / r = k := by
    rw [hk, Nat.mul_div_cancel_left _ hr]
  have hke : ∀ j : Nat, j * 60 / r = j * k := by
    intro j
    have hswap : j * (r * k) = j * k * r := by ring
    rw [hk, hswap, Nat.mul_div_cancel _ hr]
  have hkpos : 1 ≤ k := by
    have hkne : k ≠ 0 := by
      rintro rfl
      simp at hk
    omega
  have hexp : (i + 1) * k = i * k + k := by ring
  constructor
  · unfold getEstimatedTime
    rw [hke, hke, hquot]
    omega
  · unfold getEstimatedTime
    rw [hke, hke]
    omega

/-- Witness for C5 at the documented scenario: start 08:00 (480 minutes), rate
15 moves per hour; index 0 gives 08:00, index 1 gives 08:04. -/
theorem eta_gap_witness :
    (1 ≤ 15 ∧ 15 ∣ 60) ∧
    (getEstimatedTime 480 15 (0 + 1) = getEstimatedTime 480 15 0 + 60 / 15 ∧
     getEstimatedTime 480 15 0 < getEstimatedTime 480 15 (0 + 1)) :=
  ⟨by decide, eta_gap_when_rate_divides 480 15 0 (by decide) (by decide)⟩

/-- Counterexample for C5 as stated: with the legal rate 120 (at least 1) the
estimates at indices 0 and 1 are both 08:00; EstimateTime is not strictly
increasing and the gap is not 60/rate minutes. -/
theorem eta_not_strict_cex :
    1 ≤ 120 ∧
    ¬ getEstimatedTime 480 120 0 < getEstimatedTime 480 120 1 ∧
    formatTimeHM (getEstimatedTime 480 120 1) = formatTimeHM (getEstimatedTime 480 120 0) := by
  decide

/-! ## Planning queue relocation (helper lemmas). -/

theorem nodupB_nodup : ∀ {l : List String}, nodupB l = true → l.Nodup := by
  intro l
  induction l with
  | nil => intro _; exact List.nodup_nil
  | cons x xs ih =>
    intro h
    simp only [nodupB, Bool.and_eq_true, Bool.not_eq_true'] at h
    refine List.nodup_cons.2 ⟨fun hmem => ?_, ih h.2⟩
    have h1 := h.1
    have hc : xs.contains x = true := List.elem_iff.2 hmem
    rw [hc] at h1
    cases h1

theorem map_filter_comm {α β : Type} (f : α → β) (p : β → Bool) (l : List α) :
    (l.filter (fun a => p (f a))).map f = (l.map f).filter p := by
  induction l with
  | nil => rfl
  | cons a l ih => cases hpa : p (f a) <;> simp [List.filter_cons, hpa, ih]

theorem count_filter_eq (l : List String) (p : String → Bool) (x : String) :
    (l.filter p).count x = if p x = true then l.count x else 0 := by
  cases hx : p x
  · rw [if_neg (by simp)]
    rw [List.count_eq_zero]
    intro hmem
    have h2 := (List.mem_filter.1 hmem).2
    rw [hx] at h2
    cases h2
  · rw [if_pos rfl]
    exact List.count_filter hx

theorem any_beq_eq_contains (items : List StockItem) (y : String) :
    (items.any (fun i => i.id == y)) = (idsOf items).contains y := by
  have h1 : (items.any (fun i => i.id == y)) = true ↔ y ∈ idsOf items := by
    simp only [List.any_eq_true, idsOf, List.mem_map, beq_iff_eq]
  have h2 : (idsOf items).contains y = true ↔ y ∈ idsOf items := List.elem_iff
  rw [Bool.eq_iff_iff, h1, h2]

/-- Removing a duplicate-free batch of identities that all occur in a
duplicate-free list conserves the total occurrence count of every identity. -/
theorem count_filter_out (P ids : List String) (q : String → Bool) (x : String)
    (hq : ∀ y, q y = ! ids.contains y)
    (hP : P.Nodup) (hids : ids.Nodup) (hsub : ∀ y ∈ ids, y ∈ P) :
    (P.filter q).count x + ids.count x = P.count x := by
  by_cases hx : x ∈ ids
  · have h2 : ids.count x = 1 := List.count_eq_one_of_mem hids hx
    have h3 : P.count x = 1 := List.count_eq_one_of_mem hP (hsub x hx)
    have hqx : q x = false := by
      have hc : ids.contains x = true := List.elem_iff.2 hx
      rw [hq x, hc]
      rfl
    rw [count_filter_eq, hqx, if_neg (by decide)]
    omega
  · have h2 : ids.count x = 0 := List.count_eq_zero.2 hx
    have hqx : q x = true := by
      rw [hq x]
      cases hc : ids.contains x
      · rfl
      · exact absurd (List.elem_iff.1 hc) hx
    rw [count_filter_eq, hqx, if_pos rfl, h2]
    omega

theorem allIds_shape (st : PlanState) :
    allIds st = idsOf st.pool ++ (idsOf st.q1 ++ (idsOf st.q2 ++ idsOf st.q3)) := by
  simp [allIds, idsOf]

theorem allIds_count_parts (st : PlanState) (x : String) :
    (allIds st).count x =
      (idsOf st.pool).count x + (idsOf st.q1).count x +
        (idsOf st.q2).count x + (idsOf st.q3).count x := by
  rw [allIds_shape]
  simp only [List.count_append]
  omega

theorem allIds_nodup_pool {st : PlanState} (h : (allIds st).Nodup) :
    (idsOf st.pool).Nodup := by
  rw [allIds_shape] at h
  exact h.of_append_left

theorem allIds_nodup_queue {st : PlanState} (h : (allIds st).Nodup) (m : StackerId) :
    (idsOf (getQueue st m)).Nodup := by
  rw [allIds_shape] at h
  cases m
  · exact h.of_append_right.of_append_left
  · exact h.of_append_right.of_append_right.of_append_left
  · exact h.of_append_right.of_append_right.of_append_right

theorem count_handleDrop (st : PlanState) (m : StackerId) (items : List StockItem) (x : String)
    (hpoolnd : (idsOf st.pool).Nodup)
    (hok : okOp st (.assign m items) = true) :
    (allIds (handleDrop st m items)).count x = (allIds st).count x := by
  simp only [okOp, Bool.and_eq_true] at hok
  have hids : (idsOf items).Nodup := nodupB_nodup hok.1
  have hsub : ∀ y ∈ idsOf items, y ∈ idsOf st.pool := by
    intro y hy
    simp only [idsOf] at hy
    obtain ⟨i, hi, rfl⟩ := List.mem_map.1 hy
    exact List.elem_iff.1 (List.all_eq_true.1 hok.2 i hi)
  have hkey : (idsOf (st.pool.filter (fun s => ! items.any (fun i => i.id == s.id)))).count x
      + (idsOf items).count x = (idsOf st.pool).count x := by
    have hmf : idsOf (st.pool.filter (fun s => ! items.any (fun i => i.id == s.id)))
        = (idsOf st.pool).filter (fun y => ! items.any (fun i => i.id == y)) := by
      simp only [idsOf]
      exact map_filter_comm (fun s => s.id) (fun y => ! items.any (fun i => i.id == y)) st.pool
    rw [hmf]
    exact count_filter_out (idsOf st.pool) (idsOf items) _ x
      (fun y => by rw [any_beq_eq_contains]) hpoolnd hids hsub
  cases m
  all_goals
    simp only [handleDrop, setQueue, getQueue]
    rw [allIds_count_parts, allIds_count_parts]
    simp only [idsOf, List.map_append, List.count_append]
    simp only [idsOf] at hkey
    omega

theorem getQueue_pool_update (st : PlanState) (p : List StockItem) (m : StackerId) :
    getQueue { st with pool := p } m = getQueue st m := by
  cases m <;> rfl

theorem count_handleRemove (st : PlanState) (m : StackerId) (itemId : String) (x : String)
    (hqnd : (idsOf (getQueue st m)).Nodup) :
    (allIds (handleRemoveFromPlan st m itemId)).count x = (allIds st).count x := by
  cases hfind : (getQueue st m).find? (fun i => i.id == itemId) with
  | none => simp [handleRemoveFromPlan, hfind]
  | some item =>
    have hmem : item ∈ getQueue st m := List.mem_of_find?_eq_some hfind
    have hid : item.id = itemId := by
      have := List.find?_some hfind
      simpa using this
    have hcnt1 : (idsOf (getQueue st m)).count itemId = 1 := by
      apply List.count_eq_one_of_mem hqnd
      rw [← hid]
      simp only [idsOf]
      exact List.mem_map.2 ⟨item, hmem, rfl⟩
    have hmf : idsOf ((getQueue st m).filter (fun i => i.id != itemId))
        = (idsOf (getQueue st m)).filter (fun y => y != itemId) := by
      simp only [idsOf]
      exact map_filter_comm (fun s => s.id) (fun y => y != itemId) (getQueue st m)
    by_cases hx : x = itemId
    · have hfiltQ : (idsOf ((getQueue st m).filter (fun i => i.id != itemId))).count x = 0 := by
        rw [hmf, count_filter_eq, if_neg (by simp [hx])]
      have hsingle : (List.count x [item.id]) = 1 := by
        rw [hid, hx]
        simp
      have hq1 : (idsOf (getQueue st m)).count x = 1 := by
        rw [hx]
        exact hcnt1
      cases m
      all_goals
        simp only [getQueue] at hfiltQ hq1 hfind
        simp only [handleRemoveFromPlan, getQueue, hfind, setQueue]
        rw [allIds_count_parts, allIds_count_parts]
        simp only [idsOf, List.map_append, List.map_cons, List.map_nil,
          List.count_append] at hfiltQ hq1 ⊢
        omega
    · have hfiltQ : (idsOf ((getQueue st m).filter (fun i => i.id != itemId))).count x
          = (idsOf (getQueue st m)).count x := by
        rw [hmf, count_filter_eq, if_pos (by simp [bne_iff_ne, hx])]
      have hsingle : (List.count x [item.id]) = 0 := by
        rw [hid]
        simp [hx]
      cases m
      all_goals
        simp only [getQueue] at hfiltQ hfind
        simp only [handleRemoveFromPlan, getQueue, hfind, setQueue]
        rw [allIds_count_parts, allIds_count_parts]
        simp only [idsOf, List.map_append, List.map_cons, List.map_nil,
          List.count_append] at hfiltQ ⊢
        omega

theorem count_handleClear (st : PlanState) (m : StackerId) (x : String) :
    (allIds (handleClearPlan st m)).count x = (allIds st).count x := by
  cases m
  all_goals
    simp only [handleClearPlan, getQueue, setQueue]
    rw [allIds_count_parts, allIds_count_parts]
    simp only [idsOf, List.map_append, List.count_append, List.map_nil, List.count_nil]
    omega

theorem count_applyOp (st : PlanState) (op : PlanOp) (x : String)
    (hnd : (allIds st).Nodup) (hok : okOp st op = true) :
    (allIds (applyOp st op)).count x = (allIds st).count x := by
  cases op with
  | assign m items => exact count_handleDrop st m items x (allIds_nodup_pool hnd) hok
  | unassign m itemId => exact count_handleRemove st m itemId x (allIds_nodup_queue hnd m)
  | clearQueue m => exact count_handleClear st m x

theorem nodup_applyOp (st : PlanState) (op : PlanOp)
    (hnd : (allIds st).Nodup) (hok : okOp st op = true) :
    (allIds (applyOp st op)).Nodup := by
  rw [List.nodup_iff_count_le_one]
  intro a
  rw [count_applyOp st op a hnd hok]
  exact List.nodup_iff_count_le_one.1 hnd a

theorem count_runOps (ops : List PlanOp) :
    ∀ st : PlanState, (allIds st).Nodup → validOps st ops = true →
      ∀ x, (allIds (runOps st ops)).count x = (allIds st).count x := by
  induction ops with
  | nil => intro st _ _ x; rfl
  | cons op ops ih =>
    intro st hnd hv x
    simp only [validOps, Bool.and_eq_true] at hv
    have hstep := count_applyOp st op x hnd hv.1
    have hrest := ih (applyOp st op) (nodup_applyOp st op hnd hv.1) hv.2 x
    calc (allIds (runOps st (op :: ops))).count x
        = (allIds (runOps (applyOp st op) ops)).count x := rfl
      _ = (allIds (applyOp st op)).count x := hrest
      _ = (allIds st).count x := hstep

/-- C1 (amended): for any sequence of Assign/Unassign/ClearQueue calls in
which every Assign passes only items with pairwise-distinct identities that
are currently in the stock pool, starting from a state where every StockItem
is in the pool (with distinct identities) and all queues are empty, each
initial identity occurs exactly once across the pool and the three queues at
every observable point, and no other identity occurs at all.  (The unrestricted
claim is false: handleDrop performs no pool-membership check, so re-assigning
an already-planned item duplicates it — see the counterexample.) -/
theorem planning_exactly_one_place (st0 : PlanState) (ops : List PlanOp) (x : String)
    (hq1 : st0.q1 = []) (hq2 : st0.q2 = []) (hq3 : st0.q3 = [])
    (hnd : (idsOf st0.pool).Nodup)
    (hvalid : validOps st0 ops = true) :
    (x ∈ idsOf st0.pool → (allIds (runOps st0 ops)).count x = 1) ∧
    (x ∉ idsOf st0.pool → (allIds (runOps st0 ops)).count x = 0) := by
  have hshape : allIds st0 = idsOf st0.pool := by
    rw [allIds_shape, hq1, hq2, hq3]
    simp [idsOf]
  have hnd0 : (allIds st0).Nodup := by
    rw [hshape]
    exact hnd
  have hrun := count_runOps ops st0 hnd0 hvalid x
  constructor
  · intro hmem
    rw [hrun, hshape]
    exact List.count_eq_one_of_mem hnd hmem
  · intro hmem
    rw [hrun, hshape]
    exact List.count_eq_zero.2 hmem

/-- Witness for C1: two items in the pool; assign each to a different stacker,
unassign one, clear the other queue; the identity X ends up with occurrence
count exactly 1 and a foreign identity Z with count 0. -/
theorem planning_exactly_one_place_witness :
    (wSt.q1 = [] ∧ wSt.q2 = [] ∧ wSt.q3 = [] ∧ (idsOf wSt.pool).Nodup ∧
      validOps wSt wOps = true ∧ "X" ∈ idsOf wSt.pool ∧ "Z" ∉ idsOf wSt.pool) ∧
    (allIds (runOps wSt wOps)).count "X" = 1 ∧
    (allIds (runOps wSt wOps)).count "Z" = 0 :=
  ⟨by decide,
   (planning_exactly_one_place wSt wOps "X" rfl rfl rfl (by decide) (by decide)).1 (by decide),
   (planning_exactly_one_place wSt wOps "Z" rfl rfl rfl (by decide) (by decide)).2 (by decide)⟩

/-- Counterexample for C1 as stated: starting from a pool containing only
itemX and empty queues, the two-call sequence Assign([itemX], stacker 1);
Assign([itemX], stacker 2) — itemX is draggable again from the quadra modal
after being planned — leaves the identity X with occurrence count 2 (once in
queue 1 and once in queue 2), violating "in exactly one of the stock pool or
exactly one machine queue". -/
theorem planning_double_assign_cex :
    (allIds cexSt).Nodup ∧ cexSt.q1 = [] ∧ cexSt.q2 = [] ∧ cexSt.q3 = [] ∧
    (allIds (runOps cexSt cexOps)).count "X" = 2 ∧
    idsOf (runOps cexSt cexOps).q1 = ["X"] ∧
    idsOf (runOps cexSt cexOps).q2 = ["X"] := by
  decide

/-- C2 (amended): for an item whose identity is not currently in the stock
pool, Assign is NOT a no-op: the pool is unchanged with respect to that
identity (it stays absent), but the item is still appended to the named queue
together with the rest of the batch. -/
theorem assign_nonpool_appends (st : PlanState) (m : StackerId) (items : List StockItem)
    (i : StockItem) (hmem : i ∈ items) (hnp : i.id ∉ idsOf st.pool) :
    getQueue (handleDrop st m items) m = getQueue st m ++ items ∧
    i ∈ getQueue (handleDrop st m items) m ∧
    i.id ∉ idsOf (handleDrop st m items).pool := by
  have hpool : ∀ y, y ∈ idsOf (handleDrop st m items).pool → y ∈ idsOf st.pool := by
    intro y hy
    simp only [handleDrop, idsOf] at hy
    cases m
    all_goals
      simp only [setQueue] at hy
      obtain ⟨s, hs, rfl⟩ := List.mem_map.1 hy
      exact List.mem_map.2 ⟨s, (List.mem_filter.1 hs).1, rfl⟩
  refine ⟨?_, ?_, fun hcon => hnp (hpool i.id hcon)⟩
  · cases m <;> simp [handleDrop, setQueue, getQueue]
  · have hq : getQueue (handleDrop st m items) m = getQueue st m ++ items := by
      cases m <;> simp [handleDrop, setQueue, getQueue]
    rw [hq]
    exact List.mem_append_right _ hmem

/-- Witness for C2: itemX is not in the (empty) pool, yet assigning it lands
it in queue 1. -/
theorem assign_nonpool_appends_witness :
    (itemX ∈ [itemX] ∧ itemX.id ∉ idsOf emptySt.pool) ∧
    (getQueue (handleDrop emptySt .s1 [itemX]) .s1 = getQueue emptySt .s1 ++ [itemX] ∧
     itemX ∈ getQueue (handleDrop emptySt .s1 [itemX]) .s1 ∧
     itemX.id ∉ idsOf (handleDrop emptySt .s1 [itemX]).pool) :=
  ⟨by decide, assign_nonpool_appends emptySt .s1 [itemX] itemX (by decide) (by decide)⟩

/-- Counterexample for C2 as stated: itemX is not in the pool, but after the
drop the named queue HAS changed with respect to itemX — it now contains it —
so the call is not a no-op. -/
theorem assign_nonpool_cex :
    itemX.id ∉ idsOf emptySt.pool ∧
    getQueue (handleDrop emptySt .s1 [itemX]) .s1 ≠ getQueue emptySt .s1 ∧
    itemX ∈ getQueue (handleDrop emptySt .s1 [itemX]) .s1 := by
  decide

/-! ## Sorting lemmas shared by the aggregations and the bay ordering. -/

theorem insertSorted_perm {α : Type} (le : α → α → Bool) (x : α) (l : List α) :
    (insertSorted le x l).Perm (x :: l) := by
  induction l with
  | nil => exact List.Perm.refl _
  | cons y ys ih =>
    simp only [insertSorted]
    split
    · exact List.Perm.refl _
    · exact (ih.cons y).trans (List.Perm.swap x y ys)

theorem sortByCmp_perm {α : Type} (le : α → α → Bool) (l : List α) :
    (sortByCmp le l).Perm l := by
  induction l with
  | nil => exact List.Perm.refl _
  | cons x xs ih =>
    have h1 := insertSorted_perm le x (sortByCmp le xs)
    exact h1.trans (ih.cons x)

theorem insertSorted_pairwise {α : Type} (le : α → α → Bool)
    (htot : ∀ a b, le a b = false → le b a = true)
    (htrans : ∀ a b c, le a b = true → le b c = true → le a c = true)
    (x : α) (l : List α)
    (hl : l.Pairwise (fun a b => le a b = true)) :
    (insertSorted le x l).Pairwise (fun a b => le a b = true) := by
  induction l with
  | nil => simp [insertSorted]
  | cons y ys ih =>
    rw [List.pairwise_cons] at hl
    obtain ⟨hy, hys⟩ := hl
    simp only [insertSorted]
    split
    case isTrue hxy =>
      refine List.pairwise_cons.2 ⟨?_, List.pairwise_cons.2 ⟨hy, hys⟩⟩
      intro b hb
      rcases List.mem_cons.1 hb with rfl | hb
      · exact hxy
      · exact htrans x y b hxy (hy b hb)
    case isFalse hxy =>
      have hxyf : le x y = false := by
        cases hc : le x y
        · rfl
        · exact absurd hc hxy
      refine List.pairwise_cons.2 ⟨?_, ih hys⟩
      intro b hb
      have hb2 := (insertSorted_perm le x ys).mem_iff.1 hb
      rcases List.mem_cons.1 hb2 with heq | hb2
      · rw [heq]
        exact htot x y hxyf
      · exact hy b hb2

theorem sortByCmp_pairwise {α : Type} (le : α → α → Bool)
    (htot : ∀ a b, le a b = false → le b a = true)
    (htrans : ∀ a b c, le a b = true → le b c = true → le a c = true)
    (l : List α) :
    (sortByCmp le l).Pairwise (fun a b => le a b = true) := by
  induction l with
  | nil => exact List.Pairwise.nil
  | cons x xs ih => exact insertSorted_pairwise le htot htrans x _ ih

theorem insertSorted_congr {α : Type} (le1 le2 : α → α → Bool) (x : α) (l : List α)
    (h : ∀ b ∈ l, le1 x b = le2 x b) :
    insertSorted le1 x l = insertSorted le2 x l := by
  induction l with
  | nil => rfl
  | cons y ys ih =>
    simp only [insertSorted]
    rw [h y (List.mem_cons_self y ys)]
    split
    · rfl
    · rw [ih (fun b hb => h b (List.mem_cons_of_mem y hb))]

theorem sortByCmp_congr {α : Type} (le1 le2 : α → α → Bool) (l : List α)
    (h : ∀ a ∈ l, ∀ b ∈ l, le1 a b = le2 a b) :
    sortByCmp le1 l = sortByCmp le2 l := by
  induction l with
  | nil => rfl
  | cons x xs ih =>
    have hxs : sortByCmp le1 xs = sortByCmp le2 xs :=
      ih (fun a ha b hb =>
        h a (List.mem_cons_of_mem x ha) b (List.mem_cons_of_mem x hb))
    show insertSorted le1 x (sortByCmp le1 xs) = insertSorted le2 x (sortByCmp le2 xs)
    rw [hxs]
    apply insertSorted_congr
    intro b hb
    have hbmem : b ∈ xs := (sortByCmp_perm le2 xs).mem_iff.1 hb
    exact h x (List.mem_cons_self x xs) b (List.mem_cons_of_mem x hbmem)

/-! ## Aggregation sum lemmas. -/

theorem updateAssoc_measure_sum {α : Type} (μ : α → Nat) (k : String) (f : α → α)
    (dflt : α) (c : Nat) (hf : ∀ v, μ (f v) = μ v + c) (hd : μ dflt = 0)
    (acc : List (String × α)) :
    ((updateAssoc k f dflt acc).map (fun e => μ e.2)).sum
      = ((acc.map (fun e => μ e.2)).sum) + c := by
  induction acc with
  | nil => simp [updateAssoc, hf, hd]
  | cons e rest ih =>
    obtain ⟨k2, v⟩ := e
    simp only [updateAssoc]
    split
    · simp only [List.map_cons, List.sum_cons, hf]
      omega
    · simp only [List.map_cons, List.sum_cons, ih]
      omega

theorem addServiceItem_remocoes (now : Int) (st : SvcAcc) (item : ScheduleItem) :
    (addServiceItem now st item).remocoes = st.remocoes + item.remocoes := by
  rcases hrd : item.rawDate with _ | d
  · simp [addServiceItem, hrd]
  · by_cases hd : d < now <;> simp [addServiceItem, hrd, hd]

theorem foldl_service_sum (now : Int) (l : List ScheduleItem) :
    ∀ acc : List (String × SvcAcc),
      ((l.foldl (fun acc item =>
          updateAssoc (svcKey item) (fun st => addServiceItem now st item) zeroSvcAcc acc)
        acc).map (fun e => e.2.remocoes)).sum
        = ((acc.map (fun e => e.2.remocoes)).sum) + ((l.map (fun i => i.remocoes)).sum) := by
  induction l with
  | nil => intro acc; simp
  | cons item rest ih =>
    intro acc
    simp only [List.foldl_cons]
    rw [ih]
    rw [updateAssoc_measure_sum (fun v => v.remocoes) (svcKey item)
      (fun st => addServiceItem now st item) zeroSvcAcc item.remocoes
      (fun v => addServiceItem_remocoes now v item) rfl acc]
    simp only [List.map_cons, List.sum_cons]
    omega

theorem foldl_quadra_sum (l : List ScheduleItem) :
    ∀ acc : List (String × QuadraAcc),
      ((l.foldl (fun acc item =>
          updateAssoc (quadraKey item) (fun st => addQuadraItem st item) zeroQuadraAcc acc)
        acc).map (fun e => e.2.remocoes)).sum
        = ((acc.map (fun e => e.2.remocoes)).sum) + ((l.map (fun i => i.remocoes)).sum) := by
  induction l with
  | nil => intro acc; simp
  | cons item rest ih =>
    intro acc
    simp only [List.foldl_cons]
    rw [ih]
    rw [updateAssoc_measure_sum (fun v => v.remocoes) (quadraKey item)
      (fun st => addQuadraItem st item) zeroQuadraAcc item.remocoes
      (fun v => rfl) rfl acc]
    simp only [List.map_cons, List.sum_cons]
    omega

theorem serviceStats_remocoes_sum (now : Int) (l : List ScheduleItem) :
    ((serviceStats now l).map (fun s => s.remocoes)).sum
      = (l.map (fun i => i.remocoes)).sum := by
  unfold serviceStats
  have hperm := sortByCmp_perm byRemocoesDesc ((serviceStatsRaw now l).map mkServiceStat)
  rw [(hperm.map (fun s => s.remocoes)).sum_eq, List.map_map]
  have hcomp : ((serviceStatsRaw now l).map ((fun s => s.remocoes) ∘ mkServiceStat))
      = ((serviceStatsRaw now l).map (fun e => e.2.remocoes)) := rfl
  rw [hcomp]
  unfold serviceStatsRaw
  rw [foldl_service_sum now l []]
  simp

theorem quadraStats_remocoes_sum (l : List ScheduleItem) :
    ((quadraStats l).map (fun s => s.remocoes)).sum
      = (l.map (fun i => i.remocoes)).sum := by
  unfold quadraStats
  have hperm := sortByCmp_perm byRemocoesDescQ ((quadraStatsRaw l).map mkQuadraStat)
  rw [(hperm.map (fun s => s.remocoes)).sum_eq, List.map_map]
  have hcomp : ((quadraStatsRaw l).map ((fun s => s.remocoes) ∘ mkQuadraStat))
      = ((quadraStatsRaw l).map (fun e => e.2.remocoes)) := rfl
  rw [hcomp]
  unfold quadraStatsRaw
  rw [foldl_quadra_sum l []]
  simp

/-- C6: for any schedule collection and any (possibly empty) date filter, the
sum of ServiceStat.remocoes over all services, the sum of QuadraStat.remocoes
over all quadras, and the sum of remocoes over the filtered schedule items all
coincide. -/
theorem aggregation_totals (now : Int) (sched : List ScheduleItem) (p : ScheduleItem → Bool) :
    ((serviceStats now (sched.filter p)).map (fun s => s.remocoes)).sum
      = ((sched.filter p).map (fun i => i.remocoes)).sum ∧
    ((quadraStats (sched.filter p)).map (fun s => s.remocoes)).sum
      = ((sched.filter p).map (fun i => i.remocoes)).sum :=
  ⟨serviceStats_remocoes_sum now (sched.filter p), quadraStats_remocoes_sum (sched.filter p)⟩

/-! ## Per-key characterisation of the aggregation fold. -/

theorem lookupD_cons {α : Type} (dflt : α) (k1 : String) (w : α)
    (rest : List (String × α)) (k2 : String) :
    lookupD dflt ((k1, w) :: rest) k2 = if k1 = k2 then w else lookupD dflt rest k2 := by
  simp only [lookupD]
  by_cases h : k1 = k2
  · rw [List.find?_cons_of_pos _ (by simp [h]), if_pos h]
  · rw [List.find?_cons_of_neg _ (by simp [h]), if_neg h]

theorem lookupD_updateAssoc {α : Type} (dflt : α) (k k2 : String) (f : α → α)
    (acc : List (String × α)) :
    lookupD dflt (updateAssoc k f dflt acc) k2
      = if k2 = k then f (lookupD dflt acc k) else lookupD dflt acc k2 := by
  induction acc with
  | nil =>
    simp only [updateAssoc]
    rw [lookupD_cons]
    by_cases h : k2 = k
    · rw [if_pos (h.symm), if_pos h]
      rfl
    · rw [if_neg (fun hh => h hh.symm), if_neg h]
  | cons e rest ih =>
    obtain ⟨k1, w⟩ := e
    simp only [updateAssoc]
    by_cases h1 : k1 = k
    · by_cases h2 : k2 = k
      · simp [lookupD_cons, h1, h2]
      · simp [lookupD_cons, h1, h2, Ne.symm h2]
    · by_cases h2 : k2 = k
      · have ih2 : lookupD dflt (updateAssoc k f dflt rest) k = f (lookupD dflt rest k) := by
          rw [h2] at ih
          simpa using ih
        have h3 : ¬ k1 = k2 := fun hh => h1 (hh.trans h2)
        simp [lookupD_cons, ih2, h1, h2, h3]
      · simp [lookupD_cons, ih, h1, h2]

theorem mem_keys_updateAssoc {α : Type} (k y : String) (f : α → α) (dflt : α)
    (acc : List (String × α)) :
    (y ∈ (updateAssoc k f dflt acc).map (fun e => e.1)) ↔
      (y ∈ acc.map (fun e => e.1) ∨ y = k) := by
  induction acc with
  | nil => simp [updateAssoc]
  | cons e rest ih =>
    obtain ⟨k1, w⟩ := e
    simp only [updateAssoc]
    split
    case isTrue h =>
      subst h
      simp only [List.map_cons, List.mem_cons]
      tauto
    case isFalse h =>
      simp only [List.map_cons, List.mem_cons, ih]
      tauto

theorem updateAssoc_keys_nodup {α : Type} (k : String) (f : α → α) (dflt : α)
    (acc : List (String × α)) (h : (acc.map (fun e => e.1)).Nodup) :
    ((updateAssoc k f dflt acc).map (fun e => e.1)).Nodup := by
  induction acc with
  | nil => simp [updateAssoc]
  | cons e rest ih =>
    obtain ⟨k1, w⟩ := e
    simp only [List.map_cons, List.nodup_cons] at h
    simp only [updateAssoc]
    split
    case isTrue h1 =>
      simp only [List.map_cons, List.nodup_cons]
      exact ⟨h.1, h.2⟩
    case isFalse h1 =>
      simp only [List.map_cons, List.nodup_cons]
      refine ⟨fun hc => ?_, ih h.2⟩
      rcases (mem_keys_updateAssoc k k1 f dflt rest).1 hc with hc2 | hc2
      · exact h.1 hc2
      · exact h1 hc2

theorem foldl_updateAssoc_keys_nodup {α β : Type} (key : β → String) (f : β → α → α)
    (dflt : α) (l : List β) :
    ∀ acc : List (String × α), (acc.map (fun e => e.1)).Nodup →
      ((l.foldl (fun acc item => updateAssoc (key item) (f item) dflt acc) acc).map
        (fun e => e.1)).Nodup := by
  induction l with
  | nil => intro acc h; exact h
  | cons b rest ih =>
    intro acc h
    exact ih _ (updateAssoc_keys_nodup (key b) (f b) dflt acc h)

theorem lookupD_foldl_updateAssoc {α β : Type} (key : β → String) (f : β → α → α)
    (dflt : α) (l : List β) :
    ∀ (acc : List (String × α)) (k : String),
      lookupD dflt (l.foldl (fun acc item => updateAssoc (key item) (f item) dflt acc) acc) k
        = (l.filter (fun i => key i == k)).foldl (fun st i => f i st) (lookupD dflt acc k) := by
  induction l with
  | nil => intro acc k; rfl
  | cons b rest ih =>
    intro acc k
    simp only [List.foldl_cons, List.filter_cons]
    rw [ih]
    by_cases h : key b = k
    · rw [if_pos (by simp [h]), List.foldl_cons]
      have hl := lookupD_updateAssoc dflt (key b) k (f b) acc
      rw [if_pos h.symm] at hl
      rw [hl, h]
    · rw [if_neg (by simp [h])]
      have hl := lookupD_updateAssoc dflt (key b) k (f b) acc
      rw [if_neg (fun hh => h hh.symm)] at hl
      rw [hl]

theorem lookupD_of_mem {α : Type} (dflt : α) (acc : List (String × α)) (k : String) (v : α)
    (hnd : (acc.map (fun e => e.1)).Nodup) (hmem : (k, v) ∈ acc) :
    lookupD dflt acc k = v := by
  induction acc with
  | nil => cases hmem
  | cons e rest ih =>
    obtain ⟨k1, w⟩ := e
    rw [lookupD_cons]
    simp only [List.map_cons, List.nodup_cons] at hnd
    rcases List.mem_cons.1 hmem with heq | hmem2
    · obtain ⟨h1, h2⟩ := Prod.mk.injEq .. ▸ heq
      rw [if_pos h1.symm]
      exact h2.symm
    · by_cases h1 : k1 = k
      · exact absurd (h1 ▸ List.mem_map.2 ⟨(k, v), hmem2, rfl⟩) hnd.1
      · rw [if_neg h1]
        exact ih hnd.2 hmem2

/-! ## Field equations of the per-service accumulator. -/

theorem addServiceItem_count (now : Int) (st : SvcAcc) (i : ScheduleItem) :
    (addServiceItem now st i).count = st.count + 1 := by
  rcases hrd : i.rawDate with _ | d
  · simp [addServiceItem, hrd]
  · by_cases hd : d < now <;> simp [addServiceItem, hrd, hd]

theorem addServiceItem_late (now : Int) (st : SvcAcc) (i : ScheduleItem) :
    (addServiceItem now st i).late = st.late + (if isLate now i = true then 1 else 0) := by
  rcases hrd : i.rawDate with _ | d
  · simp [addServiceItem, isLate, hrd]
  · by_cases hd : d < now <;> simp [addServiceItem, isLate, hrd, hd]

theorem addServiceItem_onTime (now : Int) (st : SvcAcc) (i : ScheduleItem) :
    (addServiceItem now st i).onTime = st.onTime + (if isLate now i = true then 0 else 1) := by
  rcases hrd : i.rawDate with _ | d
  · simp [addServiceItem, isLate, hrd]
  · by_cases hd : d < now <;> simp [addServiceItem, isLate, hrd, hd]

theorem foldl_addService_count (now : Int) (m : List ScheduleItem) :
    ∀ st : SvcAcc,
      (m.foldl (fun s i => addServiceItem now s i) st).count = st.count + m.length := by
  induction m with
  | nil => intro st; simp
  | cons i rest ih =>
    intro st
    simp only [List.foldl_cons, List.length_cons]
    rw [ih, addServiceItem_count]
    omega

theorem foldl_addService_late (now : Int) (m : List ScheduleItem) :
    ∀ st : SvcAcc,
      (m.foldl (fun s i => addServiceItem now s i) st).late
        = st.late + (m.filter (fun i => isLate now i)).length := by
  induction m with
  | nil => intro st; simp
  | cons i rest ih =>
    intro st
    simp only [List.foldl_cons, List.filter_cons]
    rw [ih, addServiceItem_late]
    cases hl : isLate now i
    · simp [hl]
    · simp [hl]
      omega

theorem foldl_addService_onTime (now : Int) (m : List ScheduleItem) :
    ∀ st : SvcAcc,
      (m.foldl (fun s i => addServiceItem now s i) st).onTime
        = st.onTime + (m.filter (fun i => ! isLate now i)).length := by
  induction m with
  | nil => intro st; simp
  | cons i rest ih =>
    intro st
    simp only [List.foldl_cons, List.filter_cons]
    rw [ih, addServiceItem_onTime]
    cases hl : isLate now i
    · simp [hl]
      omega
    · simp [hl]

theorem length_filter_add_length_filter_not {α : Type} (p : α → Bool) (m : List α) :
    (m.filter p).length + (m.filter (fun a => ! p a)).length = m.length := by
  induction m with
  | nil => rfl
  | cons a rest ih =>
    cases hp : p a <;> simp [List.filter_cons, hp] <;> omega

theorem filter_and_comm {α : Type} (p q : α → Bool) (l : List α) :
    l.filter (fun a => p a && q a) = l.filter (fun a => q a && p a) := by
  induction l with
  | nil => rfl
  | cons a rest ih =>
    cases hp : p a <;> cases hq : q a <;> simp [List.filter_cons, hp, hq, ih]

/-- C8: in every row of serviceStats, `late` counts exactly the items of the
service whose scheduled timestamp is strictly before the evaluation instant,
`onTime` counts exactly the others (an item with no timestamp is never late),
and late + onTime equals the row's item count. -/
theorem service_late_split (now : Int) (l : List ScheduleItem) (s : ServiceStat)
    (hs : s ∈ serviceStats now l) :
    s.late = (l.filter (fun i => svcKey i == s.service && isLate now i)).length ∧
    s.onTime = (l.filter (fun i => svcKey i == s.service && ! isLate now i)).length ∧
    s.late + s.onTime = s.count := by
  simp only [serviceStats] at hs
  have hmem : s ∈ (serviceStatsRaw now l).map mkServiceStat :=
    (sortByCmp_perm byRemocoesDesc ((serviceStatsRaw now l).map mkServiceStat)).mem_iff.1 hs
  obtain ⟨e, he, heq⟩ := List.mem_map.1 hmem
  have hknd : ((serviceStatsRaw now l).map (fun e => e.1)).Nodup :=
    foldl_updateAssoc_keys_nodup svcKey (fun item st => addServiceItem now st item)
      zeroSvcAcc l [] (by simp)
  have hval : lookupD zeroSvcAcc (serviceStatsRaw now l) e.1 = e.2 :=
    lookupD_of_mem zeroSvcAcc (serviceStatsRaw now l) e.1 e.2 hknd he
  have hfold : e.2 = (l.filter (fun i => svcKey i == e.1)).foldl
      (fun st i => addServiceItem now st i) zeroSvcAcc := by
    rw [← hval]
    exact lookupD_foldl_updateAssoc svcKey (fun item st => addServiceItem now st item)
      zeroSvcAcc l [] e.1
  have hsvc : s.service = e.1 := by
    rw [← heq]
    rfl
  have hsl : s.late = e.2.late := by
    rw [← heq]
    rfl
  have hso : s.onTime = e.2.onTime := by
    rw [← heq]
    rfl
  have hsc : s.count = e.2.count := by
    rw [← heq]
    rfl
  have hcount := foldl_addService_count now (l.filter (fun i => svcKey i == e.1)) zeroSvcAcc
  have hlate := foldl_addService_late now (l.filter (fun i => svcKey i == e.1)) zeroSvcAcc
  have hot := foldl_addService_onTime now (l.filter (fun i => svcKey i == e.1)) zeroSvcAcc
  have hlate2 : e.2.late
      = ((l.filter (fun i => svcKey i == e.1)).filter (fun i => isLate now i)).length := by
    rw [hfold, hlate]
    simp [zeroSvcAcc]
  have hot2 : e.2.onTime
      = ((l.filter (fun i => svcKey i == e.1)).filter (fun i => ! isLate now i)).length := by
    rw [hfold, hot]
    simp [zeroSvcAcc]
  have hcount2 : e.2.count = (l.filter (fun i => svcKey i == e.1)).length := by
    rw [hfold, hcount]
    simp [zeroSvcAcc]
  refine ⟨?_, ?_, ?_⟩
  · rw [hsl, hlate2, hsvc, List.filter_filter, filter_and_comm]
  · rw [hso, hot2, hsvc, List.filter_filter, filter_and_comm]
  · rw [hsl, hso, hsc, hlate2, hot2, hcount2]
    exact length_filter_add_length_filter_not (fun i => isLate now i)
      (l.filter (fun i => svcKey i == e.1))

/-- Witness for C8 at a one-item schedule: schedItemA (service IMPORT,
timestamp 50) evaluated at instant 100 is late; its row has late 1, onTime 0,
count 1. -/
theorem service_late_split_witness :
    schedStatA ∈ serviceStats 100 [schedItemA] ∧
    (schedStatA.late = ([schedItemA].filter
        (fun i => svcKey i == schedStatA.service && isLate 100 i)).length ∧
     schedStatA.onTime = ([schedItemA].filter
        (fun i => svcKey i == schedStatA.service && ! isLate 100 i)).length ∧
     schedStatA.late + schedStatA.onTime = schedStatA.count) :=
  ⟨by decide, service_late_split 100 [schedItemA] schedStatA (by decide)⟩

/-! ## Bay grid lemmas. -/

theorem find?_decomp {α : Type} (p : α → Bool) :
    ∀ (l : List α) (a : α), l.find? p = some a →
      ∃ l1 l2, l = l1 ++ a :: l2 ∧ (∀ b ∈ l1, p b = false) ∧ p a = true := by
  intro l
  induction l with
  | nil => intro a h; cases h
  | cons x xs ih =>
    intro a h
    cases hx : p x
    · rw [List.find?_cons_of_neg _ (by simp [hx])] at h
      obtain ⟨l1, l2, heq, hl1, hpa⟩ := ih a h
      refine ⟨x :: l1, l2, by rw [heq, List.cons_append], ?_, hpa⟩
      intro b hb
      rcases List.mem_cons.1 hb with heq2 | hb2
      · rw [heq2]
        exact hx
      · exact hl1 b hb2
    · rw [List.find?_cons_of_pos _ hx] at h
      injection h with h
      subst h
      refine ⟨[], xs, rfl, ?_, hx⟩
      intro b hb
      cases hb

theorem setCell_same (g : BayGrid) (t r : Nat) (v : Option StockItem) :
    setCell g t r v t r = v := by
  simp [setCell]

theorem parsePosition_target_bounds (l : String) :
    6 - (parsePosition l).tier < 6 ∧ (parsePosition l).row < 6 := by
  have h1 := parsePosition_tier_bounds l
  have h2 := parsePosition_row_le l
  omega

theorem placeItem_preserves (g : BayGrid) (item : StockItem) (t r : Nat) (x : StockItem)
    (h : g t r = some x) : placeItem g item t r = some x := by
  simp only [placeItem]
  split
  case isFalse => exact h
  case isTrue hguard =>
    split
    case isTrue hempty =>
      simp only [setCell]
      split
      case isTrue heq =>
        rw [heq.1, heq.2, hempty] at h
        cases h
      case isFalse => exact h
    case isFalse hocc =>
      rcases hfind : findFirstEmpty g with _ | c
      · simp only [hfind]
        exact h
      · simp only [hfind]
        have hc : g c.1 c.2 = none := by
          have h5 := List.find?_some (show scanOrder.find? (fun c => (g c.1 c.2).isNone)
            = some c from hfind)
          simpa using h5
        simp only [setCell]
        split
        case isTrue heq =>
          rw [heq.1, heq.2, hc] at h
          cases h
        case isFalse => exact h

theorem hasFreeCell_findFirstEmpty (g : BayGrid) (h : hasFreeCell g = true) :
    ∃ c, findFirstEmpty g = some c := by
  unfold findFirstEmpty
  cases hf : scanOrder.find? (fun c => (g c.1 c.2).isNone) with
  | some c => exact ⟨c, rfl⟩
  | none =>
    exfalso
    obtain ⟨c, hc, hpc⟩ := List.any_eq_true.1 h
    have h5 := List.find?_eq_none.1 hf c hc
    rw [hpc] at h5
    exact h5 rfl

theorem mem_scanOrder_bounds (c : Nat × Nat) (h : c ∈ scanOrder) : c.1 < 6 ∧ c.2 < 6 := by
  simp only [scanOrder, List.mem_flatMap, List.mem_reverse, List.mem_range, List.mem_map] at h
  obtain ⟨t, ht, r, hr, heq⟩ := h
  rw [← heq]
  exact ⟨ht, hr⟩

theorem placeItem_places (g : BayGrid) (item : StockItem) (hfree : hasFreeCell g = true) :
    ∃ c : Nat × Nat, c.1 < 6 ∧ c.2 < 6 ∧ g c.1 c.2 = none ∧
      placeItem g item c.1 c.2 = some item := by
  have hg := parsePosition_target_bounds item.loc
  simp only [placeItem]
  rw [if_pos hg]
  by_cases hempty :
      g (6 - (parsePosition item.loc).tier) (parsePosition item.loc).row = none
  · rw [if_pos hempty]
    exact ⟨(6 - (parsePosition item.loc).tier, (parsePosition item.loc).row),
      hg.1, hg.2, hempty, setCell_same g _ _ _⟩
  · rw [if_neg hempty]
    obtain ⟨c, hfind⟩ := hasFreeCell_findFirstEmpty g hfree
    have hcmem : c ∈ scanOrder :=
      List.mem_of_find?_eq_some (show scanOrder.find? (fun c => (g c.1 c.2).isNone)
        = some c from hfind)
    have hbounds := mem_scanOrder_bounds c hcmem
    have hcnone : g c.1 c.2 = none := by
      have h5 := List.find?_some (show scanOrder.find? (fun c => (g c.1 c.2).isNone)
        = some c from hfind)
      simpa using h5
    simp only [hfind]
    exact ⟨c, hbounds.1, hbounds.2, hcnone, setCell_same g _ _ _⟩

theorem foldl_placeItem_preserves (l : List StockItem) :
    ∀ (g : BayGrid) (t r : Nat) (x : StockItem), g t r = some x →
      (l.foldl placeItem g) t r = some x := by
  induction l with
  | nil => intro g t r x h; exact h
  | cons i rest ih =>
    intro g t r x h
    exact ih (placeItem g i) t r x (placeItem_preserves g i t r x h)

theorem foldl_none_before (l : List StockItem) (g : BayGrid) (t r : Nat)
    (h : (l.foldl placeItem g) t r = none) : g t r = none := by
  cases hg : g t r with
  | none => rfl
  | some x =>
    have h2 := foldl_placeItem_preserves l g t r x hg
    rw [h2] at h
    cases h

theorem hasFreeCell_before (l : List StockItem) (g : BayGrid)
    (h : hasFreeCell (l.foldl placeItem g) = true) : hasFreeCell g = true := by
  obtain ⟨c, hc, hpc⟩ := List.any_eq_true.1 h
  apply List.any_eq_true.2
  refine ⟨c, hc, ?_⟩
  have h2 : (l.foldl placeItem g) c.1 c.2 = none := by simpa using hpc
  have h3 := foldl_none_before l g c.1 c.2 h2
  simp [h3]

/-- C3 (amended): when an item's target cell grid[6 - tier][row] is already
occupied, the collision resolver places the item at the position returned by
the first-fit scan over `scanOrder`, which enumerates the grid row index t
from 5 down to 0 — that is, tiers from the LOWEST tier (1) upward, not from
the highest tier downward — and, within each grid row, columns left to right.
The chosen cell is empty and every cell scanned before it is occupied. -/
theorem collision_scan_first_fit (g : BayGrid) (item : StockItem) (t r : Nat)
    (hocc : ¬ g (6 - (parsePosition item.loc).tier) (parsePosition item.loc).row = none)
    (hfind : findFirstEmpty g = some (t, r)) :
    placeItem g item = setCell g t r (some item) ∧
    g t r = none ∧
    ∃ l1 l2, scanOrder = l1 ++ (t, r) :: l2 ∧ ∀ c ∈ l1, ¬ g c.1 c.2 = none := by
  have hg := parsePosition_target_bounds item.loc
  refine ⟨?_, ?_, ?_⟩
  · simp only [placeItem]
    rw [if_pos hg, if_neg hocc, hfind]
  · have h5 := List.find?_some (show scanOrder.find? (fun c => (g c.1 c.2).isNone)
      = some (t, r) from hfind)
    simpa using h5
  · obtain ⟨l1, l2, heq, hl1, hp⟩ := find?_decomp (fun c => (g c.1 c.2).isNone)
      scanOrder (t, r)
      (show scanOrder.find? (fun c => (g c.1 c.2).isNone) = some (t, r) from hfind)
    refine ⟨l1, l2, heq, ?_⟩
    intro c hc hnone
    have h5 := hl1 c hc
    rw [hnone] at h5
    simp at h5

/-- Witness for C3: with gridItemA already at its target cell (5, 0), placing
gridItemB (same location "A1") goes to the scan result (5, 1) — visual row 5 is
tier 1, so the collision lands at the lowest tier, row B. -/
theorem collision_scan_first_fit_witness :
    (¬ buildBayGrid [gridItemA]
        (6 - (parsePosition gridItemB.loc).tier) (parsePosition gridItemB.loc).row = none ∧
     findFirstEmpty (buildBayGrid [gridItemA]) = some (5, 1)) ∧
    (placeItem (buildBayGrid [gridItemA]) gridItemB
        = setCell (buildBayGrid [gridItemA]) 5 1 (some gridItemB) ∧
     buildBayGrid [gridItemA] 5 1 = none ∧
     ∃ l1 l2, scanOrder = l1 ++ (5, 1) :: l2 ∧
       ∀ c ∈ l1, ¬ buildBayGrid [gridItemA] c.1 c.2 = none) :=
  ⟨⟨by decide, by decide⟩,
   collision_scan_first_fit (buildBayGrid [gridItemA]) gridItemB 5 1
     (by decide) (by decide)⟩

/-- Counterexample for C3 as stated: both items decode to the same target
(tier 1, row A, i.e. cell (5, 0)).  Scanning "from the highest tier downward"
would place the collided item at the empty cell (0, 0) (tier 6, row A); the
code instead places it at (5, 1) (tier 1, row B) and leaves (0, 0) empty. -/
theorem collision_scan_order_cex :
    parsePosition gridItemA.loc = parsePosition gridItemB.loc ∧
    buildBayGrid [gridItemA, gridItemB] 5 0 = some gridItemA ∧
    buildBayGrid [gridItemA, gridItemB] 5 1 = some gridItemB ∧
    buildBayGrid [gridItemA, gridItemB] 0 0 = none := by
  decide

/-- C7: if two distinct StockItems of the same bay decode to the same
coordinate and the bay grid still has a free cell when the second is placed,
then after building the fine grid both items sit at distinct cells — neither
overwrites the other. -/
theorem collision_no_overwrite (l1 l2 l3 : List StockItem) (a b : StockItem)
    (_hab : a ≠ b)
    (_hdec : parsePosition a.loc = parsePosition b.loc)
    (hfree : hasFreeCell (buildBayGrid (l1 ++ a :: l2)) = true) :
    ∃ ca cb : Nat × Nat, ca ≠ cb ∧
      buildBayGrid (l1 ++ a :: l2 ++ b :: l3) ca.1 ca.2 = some a ∧
      buildBayGrid (l1 ++ a :: l2 ++ b :: l3) cb.1 cb.2 = some b := by
  have hmid : buildBayGrid (l1 ++ a :: l2)
      = l2.foldl placeItem (placeItem (buildBayGrid l1) a) := by
    simp [buildBayGrid, List.foldl_append]
  have hsplit : buildBayGrid (l1 ++ a :: l2 ++ b :: l3)
      = l3.foldl placeItem
          (placeItem (l2.foldl placeItem (placeItem (buildBayGrid l1) a)) b) := by
    simp [buildBayGrid, List.foldl_append]
  have hfree2 : hasFreeCell (l2.foldl placeItem (placeItem (buildBayGrid l1) a)) = true := by
    rw [hmid] at hfree
    exact hfree
  have hfree1 : hasFreeCell (buildBayGrid l1) = true :=
    hasFreeCell_before [a] (buildBayGrid l1) (hasFreeCell_before l2 _ hfree2)
  obtain ⟨ca, hca1, hca2, hcaE, hcaP⟩ := placeItem_places (buildBayGrid l1) a hfree1
  have hg2a : (l2.foldl placeItem (placeItem (buildBayGrid l1) a)) ca.1 ca.2 = some a :=
    foldl_placeItem_preserves l2 _ ca.1 ca.2 a hcaP
  obtain ⟨cb, hcb1, hcb2, hcbE, hcbP⟩ :=
    placeItem_places (l2.foldl placeItem (placeItem (buildBayGrid l1) a)) b hfree2
  have hne : ca ≠ cb := by
    intro hcc
    rw [← hcc] at hcbE
    rw [hg2a] at hcbE
    cases hcbE
  have hfa : buildBayGrid (l1 ++ a :: l2 ++ b :: l3) ca.1 ca.2 = some a := by
    rw [hsplit]
    exact foldl_placeItem_preserves l3 _ ca.1 ca.2 a
      (placeItem_preserves _ b ca.1 ca.2 a hg2a)
  have hfb : buildBayGrid (l1 ++ a :: l2 ++ b :: l3) cb.1 cb.2 = some b := by
    rw [hsplit]
    exact foldl_placeItem_preserves l3 _ cb.1 cb.2 b hcbP
  exact ⟨ca, cb, hne, hfa, hfb⟩

/-- Witness for C7: the two-item bay of gridItemA and gridItemB (both decoding
to tier 1, row A). -/
theorem collision_no_overwrite_witness :
    (gridItemA ≠ gridItemB ∧
     parsePosition gridItemA.loc = parsePosition gridItemB.loc ∧
     hasFreeCell (buildBayGrid ([] ++ gridItemA :: [])) = true) ∧
    (∃ ca cb : Nat × Nat, ca ≠ cb ∧
      buildBayGrid ([] ++ gridItemA :: [] ++ gridItemB :: []) ca.1 ca.2 = some gridItemA ∧
      buildBayGrid ([] ++ gridItemA :: [] ++ gridItemB :: []) cb.1 cb.2 = some gridItemB) :=
  ⟨⟨by decide, by decide, by decide⟩,
   collision_no_overwrite [] [] [] gridItemA gridItemB (by decide) (by decide) (by decide)⟩

/-! ## Bay ordering lemmas. -/

theorem char_toNat_inj {x y : Char} (h : x.toNat = y.toNat) : x = y :=
  Char.ext (UInt32.ext h)

theorem lexLEChars_total : ∀ xs ys : List Char,
    lexLEChars xs ys = false → lexLEChars ys xs = true := by
  intro xs
  induction xs with
  | nil => intro ys h; simp [lexLEChars] at h
  | cons x xs ih =>
    intro ys h
    cases ys with
    | nil => simp [lexLEChars]
    | cons y ys2 =>
      simp only [lexLEChars] at h ⊢
      by_cases hxy : x = y
      · rw [if_pos hxy] at h
        rw [if_pos hxy.symm]
        exact ih ys2 h
      · rw [if_neg hxy] at h
        rw [if_neg (fun hh => hxy hh.symm)]
        have hne : x.toNat ≠ y.toNat := fun hh => hxy (char_toNat_inj hh)
        simp at h ⊢
        omega

theorem lexLEChars_trans : ∀ xs ys zs : List Char,
    lexLEChars xs ys = true → lexLEChars ys zs = true → lexLEChars xs zs = true := by
  intro xs
  induction xs with
  | nil => intro ys zs h1 h2; simp [lexLEChars]
  | cons x xs ih =>
    intro ys zs h1 h2
    cases ys with
    | nil => simp [lexLEChars] at h1
    | cons y ys2 =>
      cases zs with
      | nil => simp [lexLEChars] at h2
      | cons z zs2 =>
        simp only [lexLEChars] at h1 h2 ⊢
        by_cases hxy : x = y
        · rw [if_pos hxy] at h1
          by_cases hyz : y = z
          · rw [if_pos hyz] at h2
            rw [if_pos (hxy.trans hyz)]
            exact ih ys2 zs2 h1 h2
          · rw [if_neg hyz] at h2
            rw [if_neg (fun hh => hyz (hxy.symm.trans hh)), hxy]
            exact h2
        · rw [if_neg hxy] at h1
          by_cases hyz : y = z
          · rw [if_pos hyz] at h2
            rw [if_neg (fun hh => hxy (hh.trans hyz.symm)), ← hyz]
            exact h1
          · rw [if_neg hyz] at h2
            have hne1 : x.toNat ≠ y.toNat := fun hh => hxy (char_toNat_inj hh)
            have hne2 : y.toNat ≠ z.toNat := fun hh => hyz (char_toNat_inj hh)
            have hxz : x.toNat < z.toNat := by
              simp at h1 h2
              omega
            have hnxz : ¬ x = z := by
              intro hh
              rw [hh] at hxz
              omega
            rw [if_neg hnxz]
            simp
            omega

theorem lexLE_total (a b : String) (h : lexLE a b = false) : lexLE b a = true :=
  lexLEChars_total a.data b.data h

theorem lexLE_trans (a b c : String) (h1 : lexLE a b = true) (h2 : lexLE b c = true) :
    lexLE a c = true :=
  lexLEChars_trans a.data b.data c.data h1 h2

theorem numPart_eq_some (s : String) (h : hasDigit s = true) :
    numPart s = some (numVal s) := by
  simp only [numPart, numVal]
  cases hds : digitsOf s with
  | nil =>
    exfalso
    obtain ⟨c, hc, hcd⟩ := List.any_eq_true.1 h
    have hmem : c ∈ digitsOf s := List.mem_filter.2 ⟨hc, hcd⟩
    rw [hds] at hmem
    cases hmem
  | cons d ds => rfl

theorem bayLE_eq_numLE (a b : String) (ha : hasDigit a = true) (hb : hasDigit b = true) :
    bayLE a b = decide (numVal a ≤ numVal b) := by
  simp only [bayLE]
  rw [numPart_eq_some a ha, numPart_eq_some b hb]

/-- C9 (amended): in the layout map view, bays are sorted by the pairwise
comparator that is numeric when BOTH labels embed a number and lexicographic
otherwise; in particular when every bay label contains a number the result is
a permutation of the input sorted ascending by the embedded numeric portion.
The quadra modal view instead sorts its bay keys with the default
lexicographic sort regardless of numeric content (see the counterexample). -/
theorem bay_ordering_policy (l : List String) (hall : ∀ s ∈ l, hasDigit s = true) :
    (sortedBays l).Perm l ∧
    (sortedBays l).Pairwise (fun a b => numVal a ≤ numVal b) ∧
    ∀ items : List StockItem,
      (planningBayOrder items).Pairwise (fun a b => lexLE a b = true) := by
  refine ⟨sortByCmp_perm bayLE l, ?_, ?_⟩
  · have hcongr : sortByCmp bayLE l
        = sortByCmp (fun a b => decide (numVal a ≤ numVal b)) l :=
      sortByCmp_congr _ _ l (fun a ha b hb => bayLE_eq_numLE a b (hall a ha) (hall b hb))
    have hpw := sortByCmp_pairwise (fun a b : String => decide (numVal a ≤ numVal b))
      (fun a b hab => by simp at hab ⊢; omega)
      (fun a b c h1 h2 => by simp at h1 h2 ⊢; omega)
      l
    have hres : (sortedBays l).Pairwise
        (fun a b : String => decide (numVal a ≤ numVal b) = true) := by
      unfold sortedBays
      rw [hcongr]
      exact hpw
    exact hres.imp (fun h => by simpa using h)
  · intro items
    exact sortByCmp_pairwise lexLE lexLE_total lexLE_trans (insertionKeys items)

/-- Witness for C9 at the labels B10 and B2 (both contain a number): the
layout view yields the numerically ascending order. -/
theorem bay_ordering_policy_witness :
    (∀ s ∈ (["B10", "B2"] : List String), hasDigit s = true) ∧
    ((sortedBays ["B10", "B2"]).Perm ["B10", "B2"] ∧
     (sortedBays ["B10", "B2"]).Pairwise (fun a b => numVal a ≤ numVal b) ∧
     ∀ items : List StockItem,
       (planningBayOrder items).Pairwise (fun a b => lexLE a b = true)) :=
  ⟨by decide, bay_ordering_policy ["B10", "B2"] (by decide)⟩

/-- Counterexample for C9 as stated: in the quadra modal — one of the yard
spatial views — both bay labels contain a number (2 and 10), yet
Object.keys(bays).sort() orders them lexicographically as [B10, B2] instead of
ascending by numeric portion. -/
theorem bay_ordering_cex :
    hasDigit bayItem2.bay = true ∧ hasDigit bayItem10.bay = true ∧
    planningBayOrder [bayItem2, bayItem10] = ["B10", "B2"] ∧
    numVal "B2" < numVal "B10" := by
  decide
